import Mathlib

/-!
Verification development for the alpha_scout catalyst filter pipeline.

The Python source (src/alpha_scout.py) is shallowly embedded:
strings are `String`/`List Char`, Python floats are modelled as `ℚ`,
Python `int()` truncation as `pyInt`, and the regex scans of
`re.search(r"[\d\.]+", ...)` and `re.findall(r'(\d+(?:\.\d+)?)%', ...)`
as explicit character-list scanners with the same backtracking semantics.
-/

namespace AlphaScout

/-- The Catalyst record (pydantic model `Catalyst` in the source). -/
structure Catalyst where
  ticker : String
  current_price : ℚ
  market_cap : String
  conviction_score : ℤ
  thesis : String
  catalyst_details : String
  absorption_status : String
  earnings_date : String
  relative_volume : String
  stop_loss_trigger : String
  sentiment : String
  prediction_market : String
  recency_proof : String
  risk : String
  expected_upside : String
  mispricing_evidence : String
  x_sentiment : Option String
deriving Repr, DecidableEq

/-- A character accepted by the regex class `[\d\.]`. -/
def isNumChar (c : Char) : Bool := c.isDigit || c == '.'

/-- Python `str.strip()`: drop leading and trailing whitespace. -/
def pyStrip (cs : List Char) : List Char :=
  ((cs.dropWhile Char.isWhitespace).reverse.dropWhile Char.isWhitespace).reverse

/-- `cap_str.upper().replace('$', '').replace(',', '').strip()` from
`parse_market_cap_to_millions`. -/
def cleanCap (s : String) : List Char :=
  pyStrip (((s.data.map Char.toUpper).filter (fun c => c != '$')).filter (fun c => c != ','))

/-- Numeric value of one ASCII digit. -/
def digitVal (c : Char) : ℕ := c.toNat - 48

/-- Value of a digit string read as an integer (empty list gives 0,
matching Python `float` on strings like ".5"). -/
def digitsVal (cs : List Char) : ℕ := cs.foldl (fun a c => 10 * a + digitVal c) 0

/-- Value of a digit string read as a fractional part (digits after the dot). -/
def fracVal (cs : List Char) : ℚ := cs.foldr (fun c a => ((digitVal c : ℚ) + a) / 10) 0

/-- Python `float(...)` restricted to strings over `[\d\.]`: succeeds iff
there is at least one digit and at most one dot; `none` models the
`ValueError` that the source catches with its bare `except`. -/
def pyFloat (cs : List Char) : Option ℚ :=
  if (cs.all isNumChar) ∧ cs.count '.' ≤ 1 ∧ (cs.any Char.isDigit) then
    some ((digitsVal (cs.takeWhile (fun c => c != '.')) : ℚ)
      + fracVal ((cs.dropWhile (fun c => c != '.')).drop 1))
  else none

/-- `re.search(r"[\d\.]+", clean)`: the first maximal run of characters in
`[\d\.]`; `none` models a failed search (whose `.group()` raises). -/
def firstNumRun : List Char → Option (List Char)
  | [] => none
  | c :: cs => if isNumChar c then some (c :: cs.takeWhile isNumChar) else firstNumRun cs

/-- `float(re.search(r"[\d\.]+", clean).group())`: `none` models either the
failed search or the failed conversion, both caught by the source's `except`. -/
def mcapNum (clean : List Char) : Option ℚ := (firstNumRun clean).bind pyFloat

/-- `parse_market_cap_to_millions` from the source: suffix checks in the
source's order (`B`, then `M`, then `T`); any caught failure yields `0.0`. -/
def parse_market_cap_to_millions (cap_str : String) : ℚ :=
  let clean := cleanCap cap_str
  if clean.contains 'B' then
    match mcapNum clean with
    | some q => q * 1000
    | none => 0
  else if clean.contains 'M' then
    match mcapNum clean with
    | some q => q
    | none => 0
  else if clean.contains 'T' then
    match mcapNum clean with
    | some q => q * 1000000
    | none => 0
  else 0

/-- After the digits of the optional fractional part, the regex
`\d+(?:\.\d+)?%` requires the literal `%`; `m` is the captured numeral. -/
def matchAfterFrac (m rest : List Char) : Option (List Char × List Char) :=
  match rest with
  | [] => none
  | c :: r => if c = '%' then some (m, r) else none

/-- After the integer digits `d`, the regex `\d+(?:\.\d+)?%` continues with
either the literal `%`, or a dot, one or more digits and the literal `%`. -/
def matchAfterDigits (d rest : List Char) : Option (List Char × List Char) :=
  match rest with
  | [] => none
  | c :: r =>
    if c = '%' then some (d, r)
    else if c = '.' then
      if r.takeWhile Char.isDigit = [] then none
      else matchAfterFrac (d ++ '.' :: r.takeWhile Char.isDigit) (r.dropWhile Char.isDigit)
    else none

/-- One attempt of the regex `\d+(?:\.\d+)?%` at the head of `cs`: on success
returns the captured numeral (group 1) and the remainder after the `%`.
Backtracking inside either `\d+` never helps (a shortened digit run is still
followed by a digit, which matches neither `.` nor `%`), so the match, when
it exists, takes the maximal digit run, optionally a dot and the maximal
following digit run, then a literal `%`. -/
def matchPctAt (cs : List Char) : Option (List Char × List Char) :=
  if cs.takeWhile Char.isDigit = [] then none
  else matchAfterDigits (cs.takeWhile Char.isDigit) (cs.dropWhile Char.isDigit)

/-- Left-to-right non-overlapping scan of `re.findall(r'(\d+(?:\.\d+)?)%', s)`:
on a match, resume after its `%`; otherwise advance one character. The fuel
argument makes the recursion structural; `cs.length` fuel always suffices
because every step strictly shortens the list. -/
def pctMatchesF : ℕ → List Char → List (List Char)
  | 0, _ => []
  | _, [] => []
  | fuel + 1, c :: cs =>
    match matchPctAt (c :: cs) with
    | some (m, rest) => m :: pctMatchesF fuel rest
    | none => pctMatchesF fuel cs

/-- `re.findall(r'(\d+(?:\.\d+)?)%', s)`, returning the captured numerals. -/
def pctMatches (cs : List Char) : List (List Char) := pctMatchesF cs.length cs

/-- `float(x)` on a captured numeral `d` or `d.f` (always well formed). -/
def capVal (cs : List Char) : ℚ :=
  (digitsVal (cs.takeWhile (fun c => c != '.')) : ℚ)
    + fracVal ((cs.dropWhile (fun c => c != '.')).drop 1)

/-- `parse_upside_percentage` from the source: mean of all matched
percentages, `0.0` when none match. -/
def parse_upside_percentage (upside_str : String) : ℚ :=
  let ms := pctMatches upside_str.data
  if ms = [] then 0 else (ms.map capVal).sum / (ms.length : ℚ)

/-- Python `int()` on a float: truncation toward zero. -/
def pyInt (q : ℚ) : ℤ := if 0 ≤ q then ⌊q⌋ else ⌈q⌉

def strBullish : String := "Bullish"

def strBearish : String := "Bearish"

/-- `upside_val` computed in the main loop. -/
def upsideVal (c : Catalyst) : ℚ := parse_upside_percentage c.expected_upside

/-- `mcap_millions` computed in the main loop. -/
def mcapMillions (c : Catalyst) : ℚ := parse_market_cap_to_millions c.market_cap

/-- `is_liquid_enough = mcap_millions >= 300`. -/
def is_liquid_enough (c : Catalyst) : Bool := decide (300 ≤ mcapMillions c)

/-- `is_sweet_spot = 500 <= mcap_millions <= 10000`. -/
def is_sweet_spot (c : Catalyst) : Bool :=
  decide (500 ≤ mcapMillions c ∧ mcapMillions c ≤ 10000)

/-- `final_score`: the conviction score plus `0.5` in the sweet spot. -/
def final_score (c : Catalyst) : ℚ :=
  if is_sweet_spot c then (c.conviction_score : ℚ) + 1 / 2 else (c.conviction_score : ℚ)

/-- The filter criteria of the main loop (all four conditions conjoined). -/
def accepts (c : Catalyst) : Bool :=
  decide (c.sentiment = strBullish) && decide (8 ≤ upsideVal c)
    && is_liquid_enough c && decide (15 / 2 ≤ final_score c)

/-- `min(10, int(final_score))`, the value written back into the record. -/
def storedScore (c : Catalyst) : ℤ := min 10 (pyInt (final_score c))

/-- `c.conviction_score = min(10, int(final_score))`: the accepted record
with its conviction score overwritten. -/
def updateScore (c : Catalyst) : Catalyst := { c with conviction_score := storedScore c }

/-- The per-candidate loop of `main`: keep the accepted candidates, in input
order, each with its conviction score overwritten. -/
def filterPhase (cs : List Catalyst) : List Catalyst :=
  (cs.filter accepts).map updateScore

/-- Stable descending insertion: an earlier element goes before every later
element whose conviction score is not larger. -/
def insertDesc (c : Catalyst) : List Catalyst → List Catalyst
  | [] => [c]
  | d :: ds =>
    if d.conviction_score ≤ c.conviction_score then c :: d :: ds
    else d :: insertDesc c ds

/-- `filtered_catalysts.sort(key=..., reverse=True)`: Python's sort is stable,
so it is embedded as stable insertion sort by conviction score descending. -/
def sortDesc : List Catalyst → List Catalyst
  | [] => []
  | c :: cs => insertDesc c (sortDesc cs)

/-- The externally visible outcome of one run: the list saved to the JSON
snapshot (if any) and the list of alerted (and CSV-logged) candidates. -/
structure RunOutcome where
  saved : Option (List Catalyst)
  alerted : List Catalyst
deriving Repr, DecidableEq

/-- `main` from the source, as a function of the model response (`none`
models a falsy/absent parsed report): no save at all when there are no
candidates; the raw report saved when none pass the filters; otherwise the
sorted filtered list is saved and its first three entries are alerted. -/
def runMain (resp : Option (List Catalyst)) : RunOutcome :=
  match resp with
  | none => { saved := none, alerted := [] }
  | some cats =>
    if cats = [] then { saved := none, alerted := [] }
    else
      let filtered := filterPhase cats
      if filtered = [] then { saved := some cats, alerted := [] }
      else
        let ranked := sortDesc filtered
        { saved := some ranked, alerted := ranked.take 3 }

/-- Convenience constructor: a catalyst whose descriptive payload fields are
empty, determined by the four fields the engine actually inspects. -/
def mkCand (t mc : String) (score : ℤ) (sent ups : String) : Catalyst :=
  { ticker := t
    current_price := 10
    market_cap := mc
    conviction_score := score
    thesis := ""
    catalyst_details := ""
    absorption_status := ""
    earnings_date := ""
    relative_volume := ""
    stop_loss_trigger := ""
    sentiment := sent
    prediction_market := ""
    recency_proof := ""
    risk := ""
    expected_upside := ups
    mispricing_evidence := ""
    x_sentiment := none }

/-- Candidate A of the spec's filter-engine example. -/
def candA : Catalyst := mkCand ("A") ("$600M") 8 strBullish ("12%")

/-- Candidate B of the spec's filter-engine example. -/
def candB : Catalyst := mkCand ("B") ("$1B") 9 strBullish ("3%")

/-- Candidate C of the spec's filter-engine example. -/
def candC : Catalyst := mkCand ("C") ("$700M") 9 strBearish ("20%")

/-- The spec's three-candidate example input, in order. -/
def specCandidates : List Catalyst := [candA, candB, candC]

/-- Two accepted candidates with equal stored scores, for the stability check. -/
def candD1 : Catalyst := mkCand ("D1") ("$600M") 8 strBullish ("12%")

def candD2 : Catalyst := mkCand ("D2") ("$900M") 8 strBullish ("9%")

def stabilityList : List Catalyst := [candD1, candD2]

def emptyStr : String := ""

def garbageStr : String := "garbage"

def s450M : String := "$450M"

def s21B : String := "$2.1B"

def s12T : String := "$1.2T"

def twoLb : String := "2b"

def twoUB : String := "2B"

def oneTB : String := "$1TB"

def tenTo20 : String := "10-20%"

def eightPct : String := "8%"

def flatStr : String := "flat"

def up5to10 : String := "up 5% to 10%"

def noPctStr : String := "up 12 points"

def minus5 : String := "-5%"

/-- Modelled from the spec's words for the C4 contract (priority order `T`,
then `B`, then `M`), to be compared with `parse_market_cap_to_millions`. -/
def normalize_market_cap_claim (s : String) : ℚ :=
  let clean := cleanCap s
  if clean.contains 'T' then ((mcapNum clean).getD 0) * 1000000
  else if clean.contains 'B' then ((mcapNum clean).getD 0) * 1000
  else if clean.contains 'M' then (mcapNum clean).getD 0
  else 0

/-! ## Lemmas about the regex scan -/

theorem matchAfterFrac_eq {m rest p out : List Char}
    (h : matchAfterFrac m rest = some (p, out)) : p = m ∧ rest = '%' :: out := by
  cases rest with
  | nil => simp [matchAfterFrac] at h
  | cons c r =>
    by_cases hc : c = '%'
    · subst hc
      simp [matchAfterFrac] at h
      exact ⟨h.1.symm, by rw [h.2]⟩
    · simp [matchAfterFrac, hc] at h

theorem matchAfterDigits_eq {d rest m out : List Char}
    (h : matchAfterDigits d rest = some (m, out)) : d ++ rest = m ++ '%' :: out := by
  cases rest with
  | nil => simp [matchAfterDigits] at h
  | cons c r =>
    by_cases hc : c = '%'
    · subst hc
      simp [matchAfterDigits] at h
      rw [h.1, h.2]
    · by_cases hdot : c = '.'
      · subst hdot
        simp only [matchAfterDigits, if_true, if_false] at h
        rcases htw : r.takeWhile Char.isDigit with _ | ⟨c2, r2⟩
        · rw [htw, if_pos rfl] at h
          exact absurd h (by simp)
        · rw [htw, if_neg (by simp)] at h
          obtain ⟨hm, hr⟩ := matchAfterFrac_eq h
          rw [hm]
          have hsplit := List.takeWhile_append_dropWhile (p := Char.isDigit) (l := r)
          calc d ++ '.' :: r
              = d ++ '.' :: (r.takeWhile Char.isDigit ++ r.dropWhile Char.isDigit) := by
                rw [hsplit]
            _ = (d ++ '.' :: (c2 :: r2)) ++ '%' :: out := by
                rw [htw, hr]
                simp
      · simp [matchAfterDigits, hc, hdot] at h

theorem matchPctAt_eq {cs m out : List Char}
    (h : matchPctAt cs = some (m, out)) : cs = m ++ '%' :: out := by
  unfold matchPctAt at h
  split at h
  · exact absurd h (by simp)
  · have hd := matchAfterDigits_eq h
    rwa [List.takeWhile_append_dropWhile] at hd

theorem matchPctAt_length {cs m out : List Char}
    (h : matchPctAt cs = some (m, out)) : out.length < cs.length := by
  rw [matchPctAt_eq h]
  simp [List.length_append]
  omega

/-- The scan's fuel is irrelevant as soon as it covers the list's length, so
`pctMatches`, which uses `cs.length` fuel, is the total scan. -/
theorem pctMatchesF_fuel {f1 : ℕ} : ∀ {f2 : ℕ} {cs : List Char},
    cs.length ≤ f1 → cs.length ≤ f2 → pctMatchesF f1 cs = pctMatchesF f2 cs := by
  induction f1 with
  | zero =>
    intro f2 cs h1 _
    have hnil : cs = [] := List.length_eq_zero.mp (Nat.le_zero.mp h1)
    subst hnil
    cases f2 <;> simp [pctMatchesF]
  | succ f1 ih =>
    intro f2 cs h1 h2
    cases cs with
    | nil => cases f2 <;> simp [pctMatchesF]
    | cons c cs =>
      cases f2 with
      | zero => simp at h2
      | succ f2 =>
        rcases hm : matchPctAt (c :: cs) with _ | ⟨m0, rest⟩
        · simp only [List.length_cons] at h1 h2
          simp only [pctMatchesF, hm]
          exact ih (by omega) (by omega)
        · have hlen := matchPctAt_length hm
          simp only [List.length_cons] at hlen h1 h2
          have hb1 : rest.length ≤ f1 := by omega
          have hb2 : rest.length ≤ f2 := by omega
          simp only [pctMatchesF, hm]
          rw [@ih f2 rest hb1 hb2]

theorem pctMatchesF_mem_split {fuel : ℕ} : ∀ {cs m : List Char},
    m ∈ pctMatchesF fuel cs → ∃ p q, cs = p ++ m ++ '%' :: q := by
  induction fuel with
  | zero => intro cs m h; simp [pctMatchesF] at h
  | succ fuel ih =>
    intro cs m h
    cases cs with
    | nil => simp [pctMatchesF] at h
    | cons c cs =>
      rcases hm : matchPctAt (c :: cs) with _ | ⟨m0, rest⟩
      · rw [pctMatchesF, hm] at h
        obtain ⟨p, q, hpq⟩ := ih h
        exact ⟨c :: p, q, by simp [hpq]⟩
      · rw [pctMatchesF, hm] at h
        have hdec := matchPctAt_eq hm
        rcases List.mem_cons.mp h with rfl | hmem
        · exact ⟨[], rest, by simpa using hdec⟩
        · obtain ⟨p, q, hpq⟩ := ih hmem
          refine ⟨m0 ++ '%' :: p, q, ?_⟩
          rw [hdec, hpq]
          simp

/-- Every captured numeral is a substring of the input that the `%` sign
follows immediately. -/
theorem pctMatches_mem_split {cs m : List Char} (h : m ∈ pctMatches cs) :
    ∃ p q, cs = p ++ m ++ '%' :: q :=
  pctMatchesF_mem_split h

/-! ## Nonnegativity of the parsed values -/

theorem fracVal_nonneg (cs : List Char) : 0 ≤ fracVal cs := by
  induction cs with
  | nil => simp [fracVal]
  | cons c cs ih =>
    simp only [fracVal, List.foldr_cons] at ih ⊢
    have hc : (0 : ℚ) ≤ (digitVal c : ℚ) := Nat.cast_nonneg _
    have := add_nonneg hc ih
    positivity

theorem capVal_nonneg (cs : List Char) : 0 ≤ capVal cs :=
  add_nonneg (Nat.cast_nonneg _) (fracVal_nonneg _)

theorem parse_upside_percentage_nonneg (s : String) : 0 ≤ parse_upside_percentage s := by
  simp only [parse_upside_percentage]
  split
  · exact le_refl 0
  · refine div_nonneg (List.sum_nonneg ?_) (Nat.cast_nonneg _)
    intro x hx
    simp only [List.mem_map] at hx
    obtain ⟨m, _, rfl⟩ := hx
    exact capVal_nonneg m

/-! ## Lemmas about the filter phase -/

theorem final_score_eq (c : Catalyst) :
    final_score c
      = if 500 ≤ mcapMillions c ∧ mcapMillions c ≤ 10000
        then (c.conviction_score : ℚ) + 1 / 2
        else (c.conviction_score : ℚ) := by
  simp [final_score, is_sweet_spot]

theorem accepts_iff (c : Catalyst) :
    accepts c = true ↔
      c.sentiment = strBullish ∧ 8 ≤ upsideVal c ∧ 300 ≤ mcapMillions c
        ∧ 15 / 2 ≤ final_score c := by
  simp [accepts, is_liquid_enough, Bool.and_eq_true, decide_eq_true_eq, and_assoc]

theorem pyInt_eq_floor {q : ℚ} (h : 0 ≤ q) : pyInt q = ⌊q⌋ := by
  simp [pyInt, h]

theorem accepts_final_score_nonneg {c : Catalyst} (h : accepts c = true) :
    0 ≤ final_score c := by
  have h4 := ((accepts_iff c).mp h).2.2.2
  linarith

theorem storedScore_eq_floor {c : Catalyst} (h : accepts c = true) :
    storedScore c = min 10 ⌊final_score c⌋ := by
  rw [storedScore, pyInt_eq_floor (accepts_final_score_nonneg h)]

theorem mem_filterPhase_iff {cs : List Catalyst} {c : Catalyst} :
    c ∈ filterPhase cs ↔ ∃ c0, c0 ∈ cs ∧ accepts c0 = true ∧ c = updateScore c0 := by
  simp only [filterPhase, List.mem_map, List.mem_filter]
  constructor
  · rintro ⟨a, ⟨ha, hacc⟩, rfl⟩
    exact ⟨a, ha, hacc, rfl⟩
  · rintro ⟨a, ha, hacc, rfl⟩
    exact ⟨a, ⟨ha, hacc⟩, rfl⟩

theorem filterPhase_nil : filterPhase [] = [] := rfl

/-! ## Lemmas about the stable descending sort -/

theorem insertDesc_perm (c : Catalyst) (l : List Catalyst) :
    List.Perm (insertDesc c l) (c :: l) := by
  induction l with
  | nil => simp [insertDesc]
  | cons d ds ih =>
    simp only [insertDesc]
    split
    · exact List.Perm.refl _
    · exact (ih.cons d).trans (List.Perm.swap c d ds)

theorem sortDesc_perm (l : List Catalyst) : List.Perm (sortDesc l) l := by
  induction l with
  | nil => simp [sortDesc]
  | cons c cs ih => exact (insertDesc_perm c (sortDesc cs)).trans (ih.cons c)

theorem insertDesc_pairwise {c : Catalyst} {l : List Catalyst}
    (h : List.Pairwise (fun a b => b.conviction_score ≤ a.conviction_score) l) :
    List.Pairwise (fun a b => b.conviction_score ≤ a.conviction_score) (insertDesc c l) := by
  induction l with
  | nil => simp [insertDesc]
  | cons d ds ih =>
    rw [List.pairwise_cons] at h
    obtain ⟨hd, hds⟩ := h
    simp only [insertDesc]
    split
    case isTrue hle =>
      rw [List.pairwise_cons]
      refine ⟨?_, List.pairwise_cons.mpr ⟨hd, hds⟩⟩
      intro b hb
      rcases List.mem_cons.mp hb with rfl | hb
      · exact hle
      · exact le_trans (hd b hb) hle
    case isFalse hgt =>
      rw [List.pairwise_cons]
      refine ⟨?_, ih hds⟩
      intro b hb
      rcases List.mem_cons.mp ((insertDesc_perm c ds).mem_iff.mp hb) with rfl | hb
      · exact le_of_not_le hgt
      · exact hd b hb

theorem sortDesc_pairwise (l : List Catalyst) :
    List.Pairwise (fun a b => b.conviction_score ≤ a.conviction_score) (sortDesc l) := by
  induction l with
  | nil => simp [sortDesc]
  | cons c cs ih => exact insertDesc_pairwise ih

theorem insertDesc_filter {c : Catalyst} {l : List Catalyst}
    (h : List.Pairwise (fun a b => b.conviction_score ≤ a.conviction_score) l) (n : ℤ) :
    (insertDesc c l).filter (fun d => d.conviction_score == n)
      = if c.conviction_score = n
        then c :: l.filter (fun d => d.conviction_score == n)
        else l.filter (fun d => d.conviction_score == n) := by
  induction l with
  | nil =>
    by_cases hc : c.conviction_score = n
    · simp [insertDesc, List.filter_cons, hc]
    · simp [insertDesc, List.filter_cons, hc]
  | cons d ds ih =>
    rw [List.pairwise_cons] at h
    obtain ⟨hd, hds⟩ := h
    simp only [insertDesc]
    split
    case isTrue hle =>
      by_cases hc : c.conviction_score = n
      · simp [List.filter_cons, hc]
      · simp [List.filter_cons, hc]
    case isFalse hgt =>
      have hcd : c.conviction_score < d.conviction_score := lt_of_not_le hgt
      by_cases hc : c.conviction_score = n
      · have hdn : ¬ d.conviction_score = n := by omega
        simp [List.filter_cons, hdn, hc, ih hds]
      · by_cases hdn : d.conviction_score = n
        · simp [List.filter_cons, hdn, hc, ih hds]
        · simp [List.filter_cons, hdn, hc, ih hds]

theorem sortDesc_filter (l : List Catalyst) (n : ℤ) :
    (sortDesc l).filter (fun d => d.conviction_score == n)
      = l.filter (fun d => d.conviction_score == n) := by
  induction l with
  | nil => simp [sortDesc]
  | cons c cs ih =>
    simp only [sortDesc]
    rw [insertDesc_filter (sortDesc_pairwise cs) n]
    by_cases hc : c.conviction_score = n
    · simp [List.filter_cons, hc, ih]
    · simp [List.filter_cons, hc, ih]

/-! ## Lemmas about the orchestration -/

theorem runMain_none : runMain none = { saved := none, alerted := [] } := rfl

theorem runMain_noCats : runMain (some []) = { saved := none, alerted := [] } := rfl

theorem runMain_noPass {cats : List Catalyst} (h1 : cats ≠ []) (h2 : filterPhase cats = []) :
    runMain (some cats) = { saved := some cats, alerted := [] } := by
  simp [runMain, h1, h2]

theorem runMain_pass {cats : List Catalyst} (h2 : filterPhase cats ≠ []) :
    runMain (some cats)
      = { saved := some (sortDesc (filterPhase cats)),
          alerted := (sortDesc (filterPhase cats)).take 3 } := by
  have h1 : cats ≠ [] := by
    intro h
    subst h
    exact h2 filterPhase_nil
  simp [runMain, h1, h2]

/-! ## Claim theorems -/

/-- C1: the filter engine keeps a candidate iff its sentiment is Bullish, its
normalized upside is at least 8.0, its normalized market cap is at least 300
million, and its final score (the conviction score plus 0.5 exactly when the
market cap lies in the sweet spot [500, 10000]) is at least 7.5; on the spec's
three-candidate example exactly candidate A is accepted, with stored score 8. -/
theorem claim_C1 (cs : List Catalyst) (c : Catalyst) :
    (c ∈ filterPhase cs ↔
      ∃ c0, c0 ∈ cs ∧ c0.sentiment = strBullish ∧ 8 ≤ upsideVal c0
        ∧ 300 ≤ mcapMillions c0
        ∧ 15 / 2 ≤ (if 500 ≤ mcapMillions c0 ∧ mcapMillions c0 ≤ 10000
            then (c0.conviction_score : ℚ) + 1 / 2 else (c0.conviction_score : ℚ))
        ∧ c = updateScore c0)
    ∧ filterPhase specCandidates = [{ candA with conviction_score := 8 }] := by
  constructor
  · rw [mem_filterPhase_iff]
    constructor
    · rintro ⟨c0, h1, h2, h3⟩
      rw [accepts_iff] at h2
      refine ⟨c0, h1, h2.1, h2.2.1, h2.2.2.1, ?_, h3⟩
      rw [← final_score_eq]
      exact h2.2.2.2
    · rintro ⟨c0, h1, h2, h3, h4, h5, h6⟩
      refine ⟨c0, h1, ?_, h6⟩
      rw [accepts_iff]
      refine ⟨h2, h3, h4, ?_⟩
      rw [final_score_eq]
      exact h5
  · with_unfolding_all rfl

/-- Witness for C1 at the spec's example: candidate A is kept. -/
theorem claim_C1_witness :
    updateScore candA ∈ filterPhase specCandidates :=
  (claim_C1 specCandidates (updateScore candA)).1.mpr
    ⟨candA, by simp [specCandidates], by with_unfolding_all rfl,
      by with_unfolding_all decide, by with_unfolding_all decide,
      by with_unfolding_all decide, rfl⟩

/-- C2 (amended): parse_upside_percentage averages every decimal number that
is immediately followed by a percent sign (each matched numeral occurs in the
input with a percent sign written immediately after it), returns 0.0 when
none match, and in particular maps "10-20%" to 20.0 (only the 20 is
immediately followed by the sign), "8%" to 8.0, "flat" to 0.0 and
"up 5% to 10%" to 7.5, while ignoring numbers not followed by a percent
sign. -/
theorem claim_C2 (s : String) :
    (∀ m, m ∈ pctMatches s.data → ∃ p q, s.data = p ++ m ++ '%' :: q)
    ∧ (pctMatches s.data = [] → parse_upside_percentage s = 0)
    ∧ (pctMatches s.data ≠ [] →
        parse_upside_percentage s
          = ((pctMatches s.data).map capVal).sum / ((pctMatches s.data).length : ℚ))
    ∧ parse_upside_percentage tenTo20 = 20
    ∧ parse_upside_percentage eightPct = 8
    ∧ parse_upside_percentage flatStr = 0
    ∧ parse_upside_percentage up5to10 = 15 / 2
    ∧ parse_upside_percentage noPctStr = 0 := by
  refine ⟨fun m hm => pctMatches_mem_split hm, ?_, ?_, ?_, ?_, ?_, ?_, ?_⟩
  · intro h
    simp [parse_upside_percentage, h]
  · intro h
    simp [parse_upside_percentage, h]
  all_goals with_unfolding_all rfl

/-- C2 counterexample: on "10-20%" the code returns 20.0, not the claimed
midpoint 15.0, because "10" is followed by a hyphen, not a percent sign. -/
theorem claim_C2_counterexample :
    parse_upside_percentage tenTo20 = 20 ∧ (20 : ℚ) ≠ 15 :=
  ⟨by with_unfolding_all rfl, by norm_num⟩

/-- Witness for C2: the numeral 5 matched in "up 5% to 10%" occurs in the
input immediately followed by a percent sign. -/
theorem claim_C2_witness :
    (['5'] ∈ pctMatches up5to10.data)
    ∧ ∃ p q, up5to10.data = p ++ ['5'] ++ '%' :: q :=
  ⟨by with_unfolding_all decide,
    (claim_C2 up5to10).1 ['5'] (by with_unfolding_all decide)⟩

/-- C3: every accepted candidate's stored conviction score equals
min(10, floor(final_score)), where final_score adds 0.5 to the original score
exactly in the sweet spot [500, 10000]; the stored score never exceeds 10,
and the updated record is what the filter phase retains for the downstream
persistence and notification steps. -/
theorem claim_C3 (c : Catalyst) (h : accepts c = true) :
    (updateScore c).conviction_score
      = min 10 ⌊(if 500 ≤ mcapMillions c ∧ mcapMillions c ≤ 10000
          then (c.conviction_score : ℚ) + 1 / 2 else (c.conviction_score : ℚ))⌋
    ∧ (updateScore c).conviction_score ≤ 10
    ∧ ∀ cs, c ∈ cs → updateScore c ∈ filterPhase cs := by
  have hst : (updateScore c).conviction_score = storedScore c := rfl
  refine ⟨?_, ?_, ?_⟩
  · rw [hst, storedScore_eq_floor h, final_score_eq]
  · rw [hst, storedScore]
    exact min_le_left _ _
  · intro cs hcs
    exact mem_filterPhase_iff.mpr ⟨c, hcs, h, rfl⟩

/-- Witness for C3 at candidate A: accepted, and its stored score is at
most 10. -/
theorem claim_C3_witness :
    accepts candA = true ∧ (updateScore candA).conviction_score ≤ 10 :=
  ⟨by with_unfolding_all rfl, (claim_C3 candA (by with_unfolding_all rfl)).2.1⟩

/-- C4 (amended): the normalizer strips currency symbols and thousands
separators, upcases and trims, then checks the suffix letters in the order
B (times 1000), M (as-is), T (times 1000000) — not T first as the claim
states — applying the factor to the leading decimal number (0.0 when that
number is absent or malformed); the spec's examples and case-insensitivity
hold. -/
theorem claim_C4 (s : String) :
    ((cleanCap s).contains 'B' = true →
      parse_market_cap_to_millions s = ((mcapNum (cleanCap s)).getD 0) * 1000)
    ∧ ((cleanCap s).contains 'B' = false → (cleanCap s).contains 'M' = true →
      parse_market_cap_to_millions s = (mcapNum (cleanCap s)).getD 0)
    ∧ ((cleanCap s).contains 'B' = false → (cleanCap s).contains 'M' = false →
      (cleanCap s).contains 'T' = true →
      parse_market_cap_to_millions s = ((mcapNum (cleanCap s)).getD 0) * 1000000)
    ∧ ((cleanCap s).contains 'B' = false → (cleanCap s).contains 'M' = false →
      (cleanCap s).contains 'T' = false → parse_market_cap_to_millions s = 0)
    ∧ parse_market_cap_to_millions s450M = 450
    ∧ parse_market_cap_to_millions s21B = 2100
    ∧ parse_market_cap_to_millions s12T = 1200000
    ∧ parse_market_cap_to_millions twoLb = parse_market_cap_to_millions twoUB := by
  refine ⟨?_, ?_, ?_, ?_, ?_, ?_, ?_, ?_⟩
  · intro hB
    simp only [parse_market_cap_to_millions, hB]
    cases hm : mcapNum (cleanCap s) <;> simp [hm]
  · intro hB hM
    simp only [parse_market_cap_to_millions, hB, hM]
    cases hm : mcapNum (cleanCap s) <;> simp [hm]
  · intro hB hM hT
    simp only [parse_market_cap_to_millions, hB, hM, hT]
    cases hm : mcapNum (cleanCap s) <;> simp [hm]
  · intro hB hM hT
    simp only [parse_market_cap_to_millions, hB, hM, hT]
    simp
  all_goals with_unfolding_all rfl

/-- C4 counterexample: the cleaned "$1TB" contains T, but the code takes the
B branch and returns 1000.0 rather than the 1000000.0 demanded by the
claim's T-first reading. -/
theorem claim_C4_counterexample :
    (cleanCap oneTB).contains 'T' = true
    ∧ parse_market_cap_to_millions oneTB = 1000
    ∧ normalize_market_cap_claim oneTB = 1000000
    ∧ parse_market_cap_to_millions oneTB ≠ normalize_market_cap_claim oneTB := by
  have h1 : parse_market_cap_to_millions oneTB = 1000 := by with_unfolding_all rfl
  have h2 : normalize_market_cap_claim oneTB = 1000000 := by with_unfolding_all rfl
  refine ⟨by with_unfolding_all rfl, h1, h2, ?_⟩
  rw [h1, h2]
  norm_num

/-- Witness for C4 at "$2.1B": the B branch applies and yields the leading
number times 1000. -/
theorem claim_C4_witness :
    (cleanCap s21B).contains 'B' = true
    ∧ parse_market_cap_to_millions s21B = ((mcapNum (cleanCap s21B)).getD 0) * 1000 :=
  ⟨by with_unfolding_all rfl, (claim_C4 s21B).1 (by with_unfolding_all rfl)⟩

/-- C5 (amended): a run whose accepted set is empty terminates normally;
when the model produced a nonempty candidate list and none passed the
filters, the original unfiltered report is persisted and nothing is alerted;
but when the model returned no report or an empty candidate list, the run
ends with no persistence at all — contrary to the claim, no audit write
happens in that case. -/
theorem claim_C5 (cats : List Catalyst) (h1 : cats ≠ []) (h2 : filterPhase cats = []) :
    runMain (some cats) = { saved := some cats, alerted := [] }
    ∧ runMain none = { saved := none, alerted := [] }
    ∧ runMain (some ([] : List Catalyst)) = { saved := none, alerted := [] } :=
  ⟨runMain_noPass h1 h2, runMain_none, runMain_noCats⟩

/-- C5 counterexample: with an empty candidate list the accepted set is
empty, yet nothing is persisted — the unfiltered (empty) report is not
written anywhere. -/
theorem claim_C5_counterexample :
    filterPhase ([] : List Catalyst) = []
    ∧ (runMain (some ([] : List Catalyst))).saved = none
    ∧ (runMain (some ([] : List Catalyst))).saved ≠ some [] := by
  refine ⟨rfl, rfl, ?_⟩
  with_unfolding_all decide

/-- Witness for C5: with only candidate B (which fails the upside filter),
the unfiltered report is persisted and nothing is alerted. -/
theorem claim_C5_witness :
    [candB] ≠ ([] : List Catalyst) ∧ filterPhase [candB] = []
    ∧ runMain (some [candB]) = { saved := some [candB], alerted := [] } :=
  ⟨by simp, by with_unfolding_all rfl,
    (claim_C5 [candB] (by simp) (by with_unfolding_all rfl)).1⟩

/-- C6: the ranked output is sorted by stored conviction score in descending
order and is a permutation of the accepted set; it is stable — for every
score value, the candidates carrying that score appear in exactly the
relative order in which they were accepted from the input — and the ranked
list is what a run with a nonempty accepted set saves. -/
theorem claim_C6 (cs : List Catalyst) :
    List.Pairwise (fun a b => b.conviction_score ≤ a.conviction_score)
      (sortDesc (filterPhase cs))
    ∧ List.Perm (sortDesc (filterPhase cs)) (filterPhase cs)
    ∧ (∀ n : ℤ, (sortDesc (filterPhase cs)).filter (fun d => d.conviction_score == n)
        = ((cs.filter accepts).map updateScore).filter (fun d => d.conviction_score == n))
    ∧ (filterPhase cs ≠ [] →
        (runMain (some cs)).saved = some (sortDesc (filterPhase cs))) := by
  refine ⟨sortDesc_pairwise _, sortDesc_perm _, ?_, ?_⟩
  · intro n
    exact sortDesc_filter (filterPhase cs) n
  · intro h
    rw [runMain_pass h]

/-- Witness for C6: the two equal-score candidates D1, D2 keep their input
order in the saved ranking. -/
theorem claim_C6_witness :
    filterPhase stabilityList ≠ []
    ∧ (runMain (some stabilityList)).saved = some (sortDesc (filterPhase stabilityList))
    ∧ sortDesc (filterPhase stabilityList) = [updateScore candD1, updateScore candD2] :=
  ⟨by with_unfolding_all decide,
    (claim_C6 stabilityList).2.2.2 (by with_unfolding_all decide),
    by with_unfolding_all rfl⟩

/-- C7 (amended): whenever the accepted set is nonempty, the alerted subset
is exactly the first min(3, accepted_count) entries of the ranked accepted
set, while the persisted subset is the full ranked accepted set, independent
of the alert count; when the accepted set is empty, the raw report is
persisted instead of the (empty) accepted set. -/
theorem claim_C7 (cs : List Catalyst) (h : filterPhase cs ≠ []) :
    (runMain (some cs)).alerted = (sortDesc (filterPhase cs)).take 3
    ∧ (runMain (some cs)).saved = some (sortDesc (filterPhase cs))
    ∧ (runMain (some cs)).alerted.length = min 3 (filterPhase cs).length := by
  rw [runMain_pass h]
  refine ⟨rfl, rfl, ?_⟩
  rw [List.length_take, (sortDesc_perm (filterPhase cs)).length_eq]

/-- C7 counterexample: with only candidate B nothing is accepted, yet the
persisted list is the raw report, not the (empty) accepted-and-ranked set. -/
theorem claim_C7_counterexample :
    filterPhase [candB] = []
    ∧ (runMain (some [candB])).saved = some [candB]
    ∧ some ([] : List Catalyst) ≠ some [candB] :=
  ⟨by with_unfolding_all rfl, by with_unfolding_all rfl, by simp⟩

/-- Witness for C7 on the two-candidate example: two accepted, both alerted. -/
theorem claim_C7_witness :
    filterPhase stabilityList ≠ []
    ∧ (runMain (some stabilityList)).alerted.length
        = min 3 (filterPhase stabilityList).length :=
  ⟨by with_unfolding_all decide,
    (claim_C7 stabilityList (by with_unfolding_all decide)).2.2⟩

/-- C8: both normalizers are total functions of the input string (they are
plain functions in this embedding, with the caught exception paths modelled
by `none`), and every parse failure — no numeric substring, malformed
number, no percent match — yields exactly 0.0, as on "" and "garbage". -/
theorem claim_C8 (s : String) :
    (mcapNum (cleanCap s) = none → parse_market_cap_to_millions s = 0)
    ∧ (pctMatches s.data = [] → parse_upside_percentage s = 0)
    ∧ parse_market_cap_to_millions emptyStr = 0
    ∧ parse_market_cap_to_millions garbageStr = 0
    ∧ parse_upside_percentage emptyStr = 0
    ∧ parse_upside_percentage garbageStr = 0 := by
  refine ⟨?_, ?_, ?_, ?_, ?_, ?_⟩
  · intro h
    simp only [parse_market_cap_to_millions, h]
    split
    · rfl
    · split
      · rfl
      · split <;> rfl
  · intro h
    simp [parse_upside_percentage, h]
  all_goals with_unfolding_all rfl

/-- Witness for C8 at "garbage": both failure paths yield 0.0. -/
theorem claim_C8_witness :
    mcapNum (cleanCap garbageStr) = none
    ∧ pctMatches garbageStr.data = []
    ∧ parse_market_cap_to_millions garbageStr = 0
    ∧ parse_upside_percentage garbageStr = 0 :=
  ⟨by with_unfolding_all rfl, by with_unfolding_all rfl,
    (claim_C8 garbageStr).1 (by with_unfolding_all rfl),
    (claim_C8 garbageStr).2.1 (by with_unfolding_all rfl)⟩

/-- C9: filtering and ranking only ever change the conviction score, and only
of accepted candidates: every ranked output record comes from an accepted
input record and agrees with it on every field except possibly the conviction
score; rejected candidates contribute nothing to the output. -/
theorem claim_C9 (cs : List Catalyst) (c : Catalyst)
    (h : c ∈ sortDesc (filterPhase cs)) :
    ∃ c0, c0 ∈ cs ∧ accepts c0 = true ∧ c = updateScore c0
      ∧ c.ticker = c0.ticker ∧ c.current_price = c0.current_price
      ∧ c.market_cap = c0.market_cap ∧ c.thesis = c0.thesis
      ∧ c.catalyst_details = c0.catalyst_details
      ∧ c.absorption_status = c0.absorption_status
      ∧ c.earnings_date = c0.earnings_date
      ∧ c.relative_volume = c0.relative_volume
      ∧ c.stop_loss_trigger = c0.stop_loss_trigger
      ∧ c.sentiment = c0.sentiment
      ∧ c.prediction_market = c0.prediction_market
      ∧ c.recency_proof = c0.recency_proof
      ∧ c.risk = c0.risk
      ∧ c.expected_upside = c0.expected_upside
      ∧ c.mispricing_evidence = c0.mispricing_evidence
      ∧ c.x_sentiment = c0.x_sentiment := by
  have hmem := (sortDesc_perm (filterPhase cs)).mem_iff.mp h
  obtain ⟨c0, h1, h2, rfl⟩ := mem_filterPhase_iff.mp hmem
  exact ⟨c0, h1, h2, rfl, rfl, rfl, rfl, rfl, rfl, rfl, rfl, rfl, rfl, rfl, rfl,
    rfl, rfl, rfl, rfl, rfl⟩

/-- Witness for C9: the record saved for candidate A agrees with A on the
market cap and sentiment fields. -/
theorem claim_C9_witness :
    ∃ c0, c0 ∈ specCandidates ∧ accepts c0 = true
      ∧ updateScore candA = updateScore c0
      ∧ (updateScore candA).market_cap = c0.market_cap
      ∧ (updateScore candA).sentiment = c0.sentiment := by
  obtain ⟨c0, h1, h2, h3, _, _, hmc, _, _, _, _, _, _, hs, _⟩ :=
    claim_C9 specCandidates (updateScore candA) (by with_unfolding_all decide)
  exact ⟨c0, h1, h2, h3, hmc, hs⟩

/-- C10 (implicit): the upside normalizer never returns a negative value,
because the percentage pattern matches only unsigned numbers; in particular
"-5%" contributes +5.0 rather than -5.0. -/
theorem claim_C10 (s : String) :
    0 ≤ parse_upside_percentage s ∧ parse_upside_percentage minus5 = 5 :=
  ⟨parse_upside_percentage_nonneg s, by with_unfolding_all rfl⟩

end AlphaScout
